import Mathlib

/-!
Verification of the CPU-usage monitor (`src/main.py`).

The source is shallowly embedded over `List Char` (Python strings) and `ℚ`
(Python floats, idealized as exact rationals; the special values inf/nan are
outside the model).  A Python dict is an association list that keeps insertion
order: updating an existing key keeps its position, a new key is appended at
the end — exactly the behaviour of `d[k] = d.get(k, 0) + v`.  A function that
can raise an exception returns `Option` (`none` = the exception propagates).
-/

namespace CpuMon

/-- Python whitespace for `str.split()` / `str.strip()` (ASCII subset). -/
def isPySpace (c : Char) : Bool :=
  c = ' ' || c = '\t' || c = '\n' || c = '\r' || c = '\x0b' || c = '\x0c'

/-- Accumulator-style worker for `pySplit`. -/
def pySplitAux : List Char → List Char → List (List Char)
  | [], acc => if acc.isEmpty then [] else [acc.reverse]
  | c :: cs, acc =>
    if isPySpace c then
      if acc.isEmpty then pySplitAux cs [] else acc.reverse :: pySplitAux cs []
    else pySplitAux cs (c :: acc)

/-- Python `str.split()` with no argument: split on runs of whitespace,
producing no empty fields. -/
def pySplit (cs : List Char) : List (List Char) :=
  pySplitAux cs []

/-- Truthiness of Python `line.strip()`: the line has a non-whitespace char. -/
def pyStripNonEmpty (cs : List Char) : Bool :=
  cs.any (fun c => !isPySpace c)

/-- Python `line.startswith(p)`. -/
def pyStartswith (p cs : List Char) : Bool :=
  p.isPrefixOf cs

/-- Accumulator-style worker for `splitOnChar`. -/
def splitOnCharAux (sep : Char) : List Char → List Char → List (List Char)
  | [], acc => [acc.reverse]
  | c :: cs, acc =>
    if c = sep then acc.reverse :: splitOnCharAux sep cs []
    else splitOnCharAux sep cs (c :: acc)

/-- Python `s.split(sep)` for a one-character separator (keeps empty fields). -/
def splitOnChar (sep : Char) (cs : List Char) : List (List Char) :=
  splitOnCharAux sep cs []

/-- The lines of a file as seen by `file.readlines()`, with the line
terminators dropped.  Dropping the terminators is sound for this program:
every per-line operation `parse_log` performs (`strip`, `startswith("Date:")`,
`split()`) is insensitive to a trailing newline.  On the empty file this
yields one empty line where `readlines` yields none; an empty line is
skipped by `parse_log`, so the difference is unobservable. -/
def splitNl (cs : List Char) : List (List Char) :=
  splitOnChar '\n' cs

/-- Numeric value of a list of decimal digits. -/
def digitsVal (cs : List Char) : ℕ :=
  cs.foldl (fun a c => 10 * a + (c.toNat - '0'.toNat)) 0

/-- All characters are ASCII decimal digits. -/
def allDigits (cs : List Char) : Bool :=
  cs.all Char.isDigit

/-- Mantissa of a Python float literal: `digits`, `digits.digits`,
`digits.` or `.digits` (at least one digit overall). -/
def parseMant (cs : List Char) : Option ℚ :=
  let ip := cs.takeWhile (fun c => c ≠ '.')
  match cs.dropWhile (fun c => c ≠ '.') with
  | [] =>
    if ip.isEmpty || !allDigits ip then none else some ((digitsVal ip : ℕ) : ℚ)
  | _ :: frac =>
    if (ip.isEmpty && frac.isEmpty) || !allDigits ip || !allDigits frac then none
    else if frac.isEmpty then some ((digitsVal ip : ℕ) : ℚ)
    else some (((digitsVal (ip ++ frac) : ℕ) : ℚ) / 10 ^ frac.length)

/-- Exponent part of a Python float literal (after `e`/`E`). -/
def parseExp (cs : List Char) : Option ℤ :=
  match cs with
  | '+' :: ds => if ds.isEmpty || !allDigits ds then none else some (digitsVal ds : ℤ)
  | '-' :: ds => if ds.isEmpty || !allDigits ds then none else some (-(digitsVal ds : ℤ))
  | ds => if ds.isEmpty || !allDigits ds then none else some (digitsVal ds : ℤ)

/-- Unsigned core of Python `float(·)`: mantissa with optional exponent. -/
def pyFloatCore (cs : List Char) : Option ℚ :=
  let m := cs.takeWhile (fun c => c ≠ 'e' ∧ c ≠ 'E')
  match cs.dropWhile (fun c => c ≠ 'e' ∧ c ≠ 'E') with
  | [] => parseMant m
  | _ :: ex =>
    match parseMant m, parseExp ex with
    | some q, some e =>
      if 0 ≤ e then some (q * 10 ^ e.toNat) else some (q / 10 ^ (-e).toNat)
    | _, _ => none

/-- Python `float(s)` on a whitespace-free token, idealized over `ℚ`
(the special values `inf`/`nan` are outside the model).  `none` models a
`ValueError`. -/
def pyFloat (cs : List Char) : Option ℚ :=
  match cs with
  | '+' :: rest => pyFloatCore rest
  | '-' :: rest => (pyFloatCore rest).map (fun q => -q)
  | _ => pyFloatCore cs

/-- A Python dict from user name to CPU seconds, as an insertion-ordered
association list with pairwise distinct keys by construction. -/
abbrev Dict := List (List Char × ℚ)

/-- Python `d.get(k)` / `d[k]`-with-presence-test: first matching key. -/
def dictGet : Dict → List Char → Option ℚ
  | [], _ => none
  | (k, v) :: d, u => if k = u then some v else dictGet d u

/-- Python `d.get(k, x)`. -/
def dictGetD (d : Dict) (u : List Char) (x : ℚ) : ℚ :=
  (dictGet d u).getD x

/-- Python `d[k] = d.get(k, 0) + v`: update in place, else append. -/
def dictInsertAdd : Dict → List Char → ℚ → Dict
  | [], u, x => [(u, x)]
  | (k, v) :: d, u, x =>
    if k = u then (k, v + x) :: d else (k, v) :: dictInsertAdd d u x

/-- Python `list(d.keys())`. -/
def dictKeys (d : Dict) : List (List Char) :=
  d.map Prod.fst

/-- `IGNORANT_USERS` from `src/main.py` line 11. -/
def IGNORANT_USERS : List (List Char) :=
  ["root".toList, "_apt".toList, "sshd".toList, "man".toList,
   "fwupd-re".toList, "www-data".toList]

/-- The reserved metadata marker checked by `line.startswith("Date:")`. -/
def dateMarker : List Char :=
  ['D', 'a', 't', 'e', ':']

/-- The prefix of the metadata line written by `save_logs`: `"Date: "`. -/
def dateLineStart : List Char :=
  ['D', 'a', 't', 'e', ':', ' ']

/-- The body of the `for line in lines` loop of `parse_log`
(`src/main.py` lines 100-108) on one line, acting on the accumulated dict.
`none` models the uncaught `ValueError` raised by `float(parts[1])`. -/
def processLine (alive ignorant : List (List Char)) (d : Dict) (l : List Char) :
    Option Dict :=
  if pyStripNonEmpty l && !pyStartswith dateMarker l then
    match pySplit l with
    | u :: t :: _ =>
      if !(List.contains alive u) || List.contains ignorant u then some d
      else
        match pyFloat t with
        | none => none
        | some x => some (dictInsertAdd d u x)
    | _ => some d
  else some d

/-- The `for line in lines` loop of `parse_log`, over a list of lines. -/
def parseLines (alive ignorant : List (List Char)) :
    List (List Char) → Dict → Option Dict
  | [], d => some d
  | l :: ls, d =>
    match processLine alive ignorant d l with
    | none => none
    | some d₁ => parseLines alive ignorant ls d₁

/-- `parse_log` (`src/main.py` lines 96-109) on the text of one snapshot
file.  `alive` is `self.ALIVE_USERS`, `ignorant` is `IGNORANT_USERS`. -/
def parse_log (alive ignorant : List (List Char)) (content : List Char) :
    Option Dict :=
  parseLines alive ignorant (splitNl content) []

/-- The file content written by `save_logs` (`src/main.py` line 81):
`f"Date: {today}\n{result.stdout}\n"`. -/
def save_logs_content (today raw : List Char) : List Char :=
  dateLineStart ++ today ++ '\n' :: (raw ++ ['\n'])

/-- Outcome of `subprocess.run(["sudo", "sa", "-u"], ...)`: either the
invocation itself raises (`OSError` and kin), or the command completes with
some exit status and captured standard output.  Without `check=True`,
`subprocess.run` does not raise on a non-zero exit status. -/
inductive RunOutcome where
  | invokeError : RunOutcome
  | completed : ℤ → List Char → RunOutcome

/-- `save_logs` (`src/main.py` lines 69-88), abstracted over the outcome of
the external command: the result is the snapshot file content that gets
persisted, or `none` when the invocation raises (the exception propagates
before the file is opened, so nothing is written). -/
def save_logs (today : List Char) (r : RunOutcome) : Option (List Char) :=
  match r with
  | .invokeError => none
  | .completed _ stdout => some (save_logs_content today stdout)

/-- Python `a % b` on floats (sign of the divisor). -/
def pyMod (a b : ℚ) : ℚ :=
  a - b * ⌊a / b⌋

/-- `_human_readable_time` (`src/main.py` lines 90-94):
`hours = int(seconds // 3600)`, `minutes = int((seconds % 3600) // 60)`,
rendered as `f"{hours} hours {minutes} minutes"`. -/
def human_readable_time (seconds : ℚ) : String :=
  toString (⌊seconds / 3600⌋ : ℤ) ++ " hours " ++
    toString (⌊pyMod seconds 3600 / 60⌋ : ℤ) ++ " minutes"

/-- Lexicographic comparison of Python strings by code point
(`files.sort()` ordering). -/
def pyStrLe : List Char → List Char → Bool
  | [], _ => true
  | _ :: _, [] => false
  | a :: as, b :: bs => decide (a < b) || (a == b && pyStrLe as bs)

/-- Strict lexicographic comparison of Python strings by code point. -/
def pyStrLt : List Char → List Char → Bool
  | _, [] => false
  | [], _ :: _ => true
  | a :: as, b :: bs => decide (a < b) || (a == b && pyStrLt as bs)

/-- `clear_previous_logs` (`src/main.py` lines 148-156) as a function from
the directory listing to the set of files that survive: if more than 7
files are present, the listing is sorted and all but the last 7 are
removed.  The result enumerates the surviving files. -/
def clear_previous_logs (files : List (List Char)) : List (List Char) :=
  if 7 < files.length then
    (List.insertionSort (fun a b => pyStrLe a b = true) files).drop
      (files.length - 7)
  else files

/-- One `/etc/passwd` line as consumed by `__init__`: `parts[0]` and
`parts[5]` of `line.split(":")`. -/
def passwdFields (line : List Char) : List Char × Option (List Char) :=
  let parts := splitOnChar ':' line
  (parts.headD [], parts.get? 5)

/-- Python `sub in s` (substring containment). -/
def containsSub (needle : List Char) : List Char → Bool
  | [] => needle.isEmpty
  | c :: cs => needle.isPrefixOf (c :: cs) || containsSub needle cs

/-- The `ALIVE_USERS` scan of `__init__` (`src/main.py` lines 21-31):
for each `/etc/passwd` line, if `parts[5]` is a directory (abstracted by
`isdir`) and contains `"home"`, the username `parts[0]` truncated to 8
characters is appended.  `parts[5]` on a line with fewer than 6 fields
raises `IndexError`, modelled by `none`. -/
def alive_users (isdir : List Char → Bool) : List (List Char) → Option (List (List Char))
  | [] => some []
  | line :: rest =>
    match (passwdFields line).2 with
    | none => none
    | some home =>
      match alive_users isdir rest with
      | none => none
      | some acc =>
        if isdir home && containsSub ['h', 'o', 'm', 'e'] home then
          some (((passwdFields line).1.take 8) :: acc)
        else some acc

/-- The inner loop of `aggregate_cpu_usage`: merge one parsed daily record
into the running totals (`src/main.py` lines 144-145). -/
def addRecord (total r : Dict) : Dict :=
  r.foldl (fun t p => dictInsertAdd t p.1 p.2) total

/-- `aggregate_cpu_usage` (`src/main.py` lines 133-146), abstracted over the
sequence of parsed daily records (one per file of the log directory, in
directory-listing order). -/
def aggregate_cpu_usage (records : List Dict) : Dict :=
  records.foldl addRecord []

/-- Whether a line is taken by `parse_log` for user `u`: non-blank, not a
`Date:` metadata line, at least two fields, first field equal to `u`, and
`u` passes the allow/deny filter. -/
def lineTakes (alive ignorant : List (List Char)) (u l : List Char) : Bool :=
  pyStripNonEmpty l && !pyStartswith dateMarker l &&
    match pySplit l with
    | u₁ :: _ :: _ =>
      u₁ == u && List.contains alive u && !List.contains ignorant u
    | _ => false

/-- The numeric value of the second field of a line (0 if absent/invalid). -/
def lineFloat (l : List Char) : ℚ :=
  match pySplit l with
  | _ :: t :: _ => (pyFloat t).getD 0
  | _ => 0

/-- Contribution of one line to user `u`, following the specification text:
the value of the second field if the line is a data line for `u` that
passes the filter, else 0. -/
def lineVal (alive ignorant : List (List Char)) (u l : List Char) : ℚ :=
  if lineTakes alive ignorant u l then lineFloat l else 0

/-- Specification-side total for user `u` over the lines of a snapshot:
the sum of the second fields of all of the lines taken for `u`. -/
def specVal (alive ignorant : List (List Char)) (ls : List (List Char))
    (u : List Char) : ℚ :=
  (ls.map (lineVal alive ignorant u)).sum

/-- Value of user `u` inside one record (sum over matching entries). -/
def recSum (r : Dict) (u : List Char) : ℚ :=
  (r.map (fun p => if p.1 = u then p.2 else 0)).sum

/-- Whether a record mentions user `u`. -/
def recHas (r : Dict) (u : List Char) : Bool :=
  r.any (fun p => p.1 == u)

/-! ### Dictionary lemmas -/

theorem dictGet_insertAdd (d : Dict) (k u : List Char) (v : ℚ) :
    dictGet (dictInsertAdd d k v) u =
      if k = u then some (dictGetD d k 0 + v) else dictGet d u := by
  induction d with
  | nil =>
    by_cases h : k = u <;>
      simp [dictInsertAdd, dictGet, dictGetD, h, zero_add]
  | cons p d ih =>
    obtain ⟨k₁, v₁⟩ := p
    by_cases h₁ : k₁ = k
    · subst h₁
      by_cases h₂ : k₁ = u <;>
        simp [dictInsertAdd, dictGet, dictGetD, h₂]
    · simp only [dictInsertAdd, if_neg h₁]
      by_cases h₃ : k₁ = u
      · subst h₃
        have h₂ : ¬(k = k₁) := fun h => h₁ h.symm
        simp [dictGet, if_neg h₂]
      · simp only [dictGet, if_neg h₃, ih]
        by_cases h₂ : k = u
        · have hD : dictGetD ((k₁, v₁) :: d) k 0 = dictGetD d k 0 := by
            simp only [dictGetD, dictGet, if_neg h₁]
          simp only [if_pos h₂, hD]
        · simp only [if_neg h₂]

theorem mem_dictKeys_iff (d : Dict) (u : List Char) :
    u ∈ dictKeys d ↔ dictGet d u ≠ none := by
  induction d with
  | nil => simp [dictKeys, dictGet]
  | cons p d ih =>
    obtain ⟨k, v⟩ := p
    by_cases h : k = u
    · subst h; simp [dictKeys, dictGet]
    · rw [dictKeys, List.map_cons]
      rw [dictKeys] at ih
      simp only [List.mem_cons, ih, dictGet, if_neg h]
      constructor
      · rintro (h₁ | h₁)
        · exact absurd h₁.symm h
        · exact h₁
      · intro h₁; exact Or.inr h₁

theorem insertAdd_nonneg {d : Dict} {k : List Char} {v : ℚ}
    (hd : ∀ p ∈ d, 0 ≤ p.2) (hv : 0 ≤ v) :
    ∀ p ∈ dictInsertAdd d k v, 0 ≤ p.2 := by
  induction d with
  | nil => simpa [dictInsertAdd] using hv
  | cons q d ih =>
    obtain ⟨k₁, v₁⟩ := q
    by_cases h : k₁ = k
    · subst h
      intro p hp
      rcases (by simpa [dictInsertAdd] using hp) with h₁ | h₁
      · have := hd (k₁, v₁) (by simp)
        simpa [h₁] using add_nonneg this hv
      · exact hd p (List.mem_cons_of_mem _ h₁)
    · intro p hp
      rcases (by simpa [dictInsertAdd, h] using hp) with h₁ | h₁
      · exact hd p (by simp [h₁])
      · exact ih (fun q hq => hd q (List.mem_cons_of_mem _ hq)) p h₁

theorem recHas_cons (k : List Char) (w : ℚ) (r : Dict) (u : List Char) :
    recHas ((k, w) :: r) u = ((k == u) || recHas r u) := by
  simp [recHas]

theorem recSum_cons (k : List Char) (w : ℚ) (r : Dict) (u : List Char) :
    recSum ((k, w) :: r) u = (if k = u then w else 0) + recSum r u := by
  simp [recSum]

theorem recSum_eq_zero {r : Dict} {u : List Char} (h : recHas r u = false) :
    recSum r u = 0 := by
  induction r with
  | nil => simp [recSum]
  | cons p r ih =>
    obtain ⟨k, w⟩ := p
    rw [recHas_cons, Bool.or_eq_false_iff] at h
    have hk : ¬(k = u) := by simpa using h.1
    rw [recSum_cons, if_neg hk, ih h.2, zero_add]

theorem dictGet_addRecord (r : Dict) : ∀ (t : Dict) (u : List Char),
    dictGet (addRecord t r) u =
      if recHas r u then some (dictGetD t u 0 + recSum r u) else dictGet t u := by
  induction r with
  | nil => intro t u; simp [addRecord, recHas, recSum]
  | cons p r ih =>
    intro t u
    obtain ⟨k, w⟩ := p
    have hfold : addRecord t ((k, w) :: r) = addRecord (dictInsertAdd t k w) r := by
      simp [addRecord]
    rw [hfold, ih, recHas_cons, recSum_cons]
    by_cases hpu : k = u
    · have hgd : dictGetD (dictInsertAdd t k w) u 0 = dictGetD t u 0 + w := by
        rw [dictGetD, dictGet_insertAdd, if_pos hpu, hpu, Option.getD_some]
      have hg : dictGet (dictInsertAdd t k w) u = some (dictGetD t u 0 + w) := by
        rw [dictGet_insertAdd, if_pos hpu, hpu]
      rw [if_pos hpu]
      by_cases hr : recHas r u
      · rw [if_pos hr, if_pos (by simp [hpu, hr]), hgd, add_assoc]
      · have hrf : recHas r u = false := by simpa using hr
        rw [if_neg hr, if_pos (by simp [hpu]), hg, recSum_eq_zero hrf, add_zero]
    · have hgd : dictGetD (dictInsertAdd t k w) u 0 = dictGetD t u 0 := by
        rw [dictGetD, dictGet_insertAdd, if_neg hpu, dictGetD]
      have hg : dictGet (dictInsertAdd t k w) u = dictGet t u := by
        rw [dictGet_insertAdd, if_neg hpu]
      rw [if_neg hpu, zero_add]
      by_cases hr : recHas r u
      · rw [if_pos hr, if_pos (by simp [hr]), hgd]
      · rw [if_neg hr, if_neg (by simp [hr, hpu]), hg]

theorem dictGet_foldl_addRecord (rs : List Dict) : ∀ (t : Dict) (u : List Char),
    dictGet (rs.foldl addRecord t) u =
      if rs.any (fun r => recHas r u) then
        some (dictGetD t u 0 + (rs.map (fun r => recSum r u)).sum)
      else dictGet t u := by
  induction rs with
  | nil => intro t u; simp
  | cons r rs ih =>
    intro t u
    rw [List.foldl_cons, ih, List.any_cons, List.map_cons, List.sum_cons]
    by_cases hr : recHas r u = true
    · have hgd : dictGetD (addRecord t r) u 0 = dictGetD t u 0 + recSum r u := by
        rw [dictGetD, dictGet_addRecord, if_pos hr, Option.getD_some]
      by_cases hrs : rs.any (fun r => recHas r u) = true
      · rw [if_pos hrs, if_pos (by simp [hr, hrs]), hgd, add_assoc]
      · have hz : (rs.map (fun r => recSum r u)).sum = 0 := by
          refine List.sum_eq_zero ?_
          intro x hx
          obtain ⟨rr, hrr, hrx⟩ := List.mem_map.1 hx
          have hnf : recHas rr u = false := by
            by_contra hc
            exact hrs (List.any_eq_true.2 ⟨rr, hrr, by simpa using hc⟩)
          rw [← hrx]
          exact recSum_eq_zero hnf
        rw [if_neg hrs, if_pos (by simp [hr]), dictGet_addRecord, if_pos hr, hz, add_zero]
    · have hrf : recHas r u = false := by simpa using hr
      have hgd : dictGetD (addRecord t r) u 0 = dictGetD t u 0 := by
        rw [dictGetD, dictGet_addRecord, if_neg hr, dictGetD]
      have hg : dictGet (addRecord t r) u = dictGet t u := by
        rw [dictGet_addRecord, if_neg hr]
      rw [recSum_eq_zero hrf, zero_add, hrf]
      by_cases hrs : rs.any (fun r => recHas r u) = true
      · rw [if_pos hrs, if_pos (by simp [hrs]), hgd]
      · rw [if_neg hrs, if_neg (by simp [hrs]), hg]

theorem dictGet_aggregate (rs : List Dict) (u : List Char) :
    dictGet (aggregate_cpu_usage rs) u =
      if rs.any (fun r => recHas r u) then
        some ((rs.map (fun r => recSum r u)).sum)
      else none := by
  rw [aggregate_cpu_usage, dictGet_foldl_addRecord]
  simp [dictGetD, dictGet]

theorem any_eq_of_perm {α : Type} {p : α → Bool} {l₁ l₂ : List α}
    (h : l₁.Perm l₂) : l₁.any p = l₂.any p := by
  cases hb : l₂.any p
  · cases hb₁ : l₁.any p
    · rfl
    · obtain ⟨x, hx, hpx⟩ := List.any_eq_true.1 hb₁
      have : l₂.any p = true := List.any_eq_true.2 ⟨x, h.mem_iff.1 hx, hpx⟩
      rw [this] at hb
      exact absurd hb (by simp)
  · obtain ⟨x, hx, hpx⟩ := List.any_eq_true.1 hb
    exact List.any_eq_true.2 ⟨x, h.mem_iff.2 hx, hpx⟩

theorem mem_dictKeys_aggregate {rs : List Dict} {u : List Char}
    (h : u ∈ dictKeys (aggregate_cpu_usage rs)) :
    ∃ r ∈ rs, u ∈ dictKeys r := by
  have hne := (mem_dictKeys_iff _ u).1 h
  rw [dictGet_aggregate] at hne
  by_cases hany : rs.any (fun r => recHas r u) = true
  · obtain ⟨r, hr, hp⟩ := List.any_eq_true.1 hany
    refine ⟨r, hr, ?_⟩
    obtain ⟨q, hq, hqu⟩ := List.any_eq_true.1 hp
    rw [dictKeys, List.mem_map]
    exact ⟨q, hq, by simpa using hqu⟩
  · rw [if_neg hany] at hne
    exact absurd rfl hne

/-- C5 — Aggregation is order-independent: permuting the sequence of parsed
daily records does not change the resulting mapping (each user is sent to
the sum of its values across all records); the empty sequence aggregates to
the empty mapping, and `aggregate_cpu_usage` is a total function (it never
fails). -/
theorem C5_aggregate_order_independent :
    (∀ rs₁ rs₂ : List Dict, rs₁.Perm rs₂ → ∀ u : List Char,
        dictGet (aggregate_cpu_usage rs₁) u = dictGet (aggregate_cpu_usage rs₂) u)
    ∧ aggregate_cpu_usage [] = []
    ∧ (∀ (rs : List Dict) (u : List Char),
        dictGet (aggregate_cpu_usage rs) u =
          if rs.any (fun r => recHas r u) then
            some ((rs.map (fun r => recSum r u)).sum)
          else none) := by
  refine ⟨?_, rfl, dictGet_aggregate⟩
  intro rs₁ rs₂ hperm u
  rw [dictGet_aggregate, dictGet_aggregate,
    any_eq_of_perm hperm, (hperm.map (fun r => recSum r u)).sum_eq]

/-- Witness for C5 at a concrete permutation of two one-entry records. -/
theorem C5_aggregate_order_independent_witness :
    dictGet (aggregate_cpu_usage [[(['a'], (1 : ℚ))], [(['b'], (2 : ℚ))]]) ['a'] =
      dictGet (aggregate_cpu_usage [[(['b'], (2 : ℚ))], [(['a'], (1 : ℚ))]]) ['a'] :=
  C5_aggregate_order_independent.1 _ _ (List.Perm.swap _ _ _) ['a']

/-! ### Lexicographic order on filenames -/

theorem pyStrLe_cons_iff (x y : Char) (xs ys : List Char) :
    pyStrLe (x :: xs) (y :: ys) = true ↔
      x < y ∨ (x = y ∧ pyStrLe xs ys = true) := by
  simp [pyStrLe, Bool.or_eq_true, decide_eq_true_eq, Bool.and_eq_true, beq_iff_eq]

theorem pyStrLt_cons_iff (x y : Char) (xs ys : List Char) :
    pyStrLt (x :: xs) (y :: ys) = true ↔
      x < y ∨ (x = y ∧ pyStrLt xs ys = true) := by
  simp [pyStrLt, Bool.or_eq_true, decide_eq_true_eq, Bool.and_eq_true, beq_iff_eq]

theorem pyStrLe_total : ∀ a b : List Char, pyStrLe a b = true ∨ pyStrLe b a = true := by
  intro a
  induction a with
  | nil => intro b; left; simp [pyStrLe]
  | cons x xs ih =>
    intro b
    cases b with
    | nil => right; simp [pyStrLe]
    | cons y ys =>
      rcases lt_trichotomy x y with h | h | h
      · left; exact (pyStrLe_cons_iff _ _ _ _).2 (Or.inl h)
      · subst h
        rcases ih ys with h₁ | h₁
        · left; exact (pyStrLe_cons_iff _ _ _ _).2 (Or.inr ⟨rfl, h₁⟩)
        · right; exact (pyStrLe_cons_iff _ _ _ _).2 (Or.inr ⟨rfl, h₁⟩)
      · right; exact (pyStrLe_cons_iff _ _ _ _).2 (Or.inl h)

theorem pyStrLe_trans : ∀ a b c : List Char,
    pyStrLe a b = true → pyStrLe b c = true → pyStrLe a c = true := by
  intro a
  induction a with
  | nil => intro b c _ _; simp [pyStrLe]
  | cons x xs ih =>
    intro b c hab hbc
    cases b with
    | nil => simp [pyStrLe] at hab
    | cons y ys =>
      cases c with
      | nil => simp [pyStrLe] at hbc
      | cons z zs =>
        rcases (pyStrLe_cons_iff _ _ _ _).1 hab with h₁ | ⟨h₁, h₁'⟩ <;>
          rcases (pyStrLe_cons_iff _ _ _ _).1 hbc with h₂ | ⟨h₂, h₂'⟩
        · exact (pyStrLe_cons_iff _ _ _ _).2 (Or.inl (lt_trans h₁ h₂))
        · exact (pyStrLe_cons_iff _ _ _ _).2 (Or.inl (h₂ ▸ h₁))
        · exact (pyStrLe_cons_iff _ _ _ _).2 (Or.inl (h₁ ▸ h₂))
        · exact (pyStrLe_cons_iff _ _ _ _).2
            (Or.inr ⟨h₁.trans h₂, ih ys zs h₁' h₂'⟩)

theorem pyStrLt_of_le_of_ne : ∀ a b : List Char,
    pyStrLe a b = true → a ≠ b → pyStrLt a b = true := by
  intro a
  induction a with
  | nil =>
    intro b _ hne
    cases b with
    | nil => exact absurd rfl hne
    | cons y ys => simp [pyStrLt]
  | cons x xs ih =>
    intro b hle hne
    cases b with
    | nil => simp [pyStrLe] at hle
    | cons y ys =>
      rcases (pyStrLe_cons_iff _ _ _ _).1 hle with h | ⟨h, h'⟩
      · exact (pyStrLt_cons_iff _ _ _ _).2 (Or.inl h)
      · subst h
        have hxy : xs ≠ ys := fun hh => hne (by rw [hh])
        exact (pyStrLt_cons_iff _ _ _ _).2 (Or.inr ⟨rfl, ih ys h' hxy⟩)

instance : IsTotal (List Char) (fun a b => pyStrLe a b = true) :=
  ⟨pyStrLe_total⟩

instance : IsTrans (List Char) (fun a b => pyStrLe a b = true) :=
  ⟨pyStrLe_trans⟩

/-! ### Pruning lemmas -/

theorem clear_previous_logs_length_le (files : List (List Char)) :
    (clear_previous_logs files).length ≤ 7 := by
  rw [clear_previous_logs]
  by_cases h : 7 < files.length
  · rw [if_pos h, List.length_drop,
      (List.perm_insertionSort (fun a b => pyStrLe a b = true) files).length_eq]
    omega
  · rw [if_neg h]; omega

theorem clear_previous_logs_of_le {files : List (List Char)}
    (h : files.length ≤ 7) : clear_previous_logs files = files := by
  rw [clear_previous_logs, if_neg (by omega)]

/-- C2 — Retention bound: after pruning, at most 7 files remain; if the
store already holds at most 7 files nothing is removed; survivors come from
the original listing; with more than 7 files exactly 7 survive, and every
removed file is lexically (strictly) smaller than every survivor, i.e. the
survivors are exactly the 7 lexically greatest names. -/
theorem C2_retention_bound : ∀ files : List (List Char),
    (clear_previous_logs files).length ≤ 7
    ∧ (files.length ≤ 7 → clear_previous_logs files = files)
    ∧ (∀ y ∈ clear_previous_logs files, y ∈ files)
    ∧ (7 < files.length → (clear_previous_logs files).length = 7)
    ∧ (files.Nodup → ∀ x ∈ files, x ∉ clear_previous_logs files →
        ∀ y ∈ clear_previous_logs files, pyStrLt x y = true) := by
  intro files
  refine ⟨clear_previous_logs_length_le files, clear_previous_logs_of_le, ?_, ?_, ?_⟩
  · intro y hy
    rw [clear_previous_logs] at hy
    by_cases h : 7 < files.length
    · rw [if_pos h] at hy
      exact (List.perm_insertionSort (fun a b => pyStrLe a b = true) files).subset
        (List.drop_subset _ _ hy)
    · rwa [if_neg h] at hy
  · intro h
    rw [clear_previous_logs, if_pos h, List.length_drop,
      (List.perm_insertionSort (fun a b => pyStrLe a b = true) files).length_eq]
    omega
  · intro hnd x hx hxnot y hy
    by_cases h : 7 < files.length
    · set r := fun a b : List Char => pyStrLe a b = true with hr
      set s := List.insertionSort r files with hs
      have hperm : s.Perm files := List.perm_insertionSort r files
      have hsorted : List.Pairwise r s := List.sorted_insertionSort r files
      have hsnd : s.Nodup := (hperm.nodup_iff).2 hnd
      have hclear : clear_previous_logs files = s.drop (files.length - 7) := by
        rw [clear_previous_logs, if_pos h]
      set k := files.length - 7 with hk
      have hsplit : s.take k ++ s.drop k = s := List.take_append_drop k s
      have hxs : x ∈ s := hperm.mem_iff.2 hx
      have hxtake : x ∈ s.take k := by
        rcases (List.mem_append.1 (by rw [hsplit]; exact hxs)) with h₁ | h₁
        · exact h₁
        · exact absurd h₁ (by rwa [hclear] at hxnot)
      have hydrop : y ∈ s.drop k := by rwa [hclear] at hy
      have hpw : List.Pairwise r (s.take k ++ s.drop k) := by rwa [hsplit]
      have hle : r x y := (List.pairwise_append.1 hpw).2.2 x hxtake y hydrop
      have hnd' : (s.take k ++ s.drop k).Nodup := by rwa [hsplit]
      have hdisj : List.Disjoint (s.take k) (s.drop k) :=
        List.disjoint_of_nodup_append hnd'
      have hne : x ≠ y := by
        intro hxy
        exact hdisj hxtake (hxy ▸ hydrop)
      exact pyStrLt_of_le_of_ne x y hle hne
    · exact absurd hx (by rwa [clear_previous_logs_of_le (by omega)] at hxnot)

/-- Witness for C2: a two-file store is untouched, and the file removed
from an eight-file store is lexically smaller than a survivor. -/
theorem C2_retention_bound_witness :
    clear_previous_logs [['b'], ['a']] = [['b'], ['a']]
    ∧ pyStrLt ['a'] ['b'] = true :=
  ⟨(C2_retention_bound [['b'], ['a']]).2.1 (by decide),
   (C2_retention_bound [['a'], ['b'], ['c'], ['d'], ['e'], ['f'], ['g'], ['h']]).2.2.2.2
     (by decide) ['a'] (by decide) (by decide) ['b'] (by decide)⟩

/-- C7 — Pruning is idempotent: a second run of `clear_previous_logs` with
no intervening write removes nothing, because after the first run at most
7 files remain. -/
theorem C7_prune_idempotent : ∀ files : List (List Char),
    clear_previous_logs (clear_previous_logs files) = clear_previous_logs files :=
  fun files => clear_previous_logs_of_le (clear_previous_logs_length_le files)

/-! ### Formatting lemmas -/

theorem pyMod_eq (s : ℚ) : pyMod s 3600 = 3600 * Int.fract (s / 3600) := by
  rw [pyMod, Int.fract]
  field_simp

theorem pyMod_nonneg (s : ℚ) : 0 ≤ pyMod s 3600 := by
  rw [pyMod_eq]
  exact mul_nonneg (by norm_num) (Int.fract_nonneg _)

theorem pyMod_lt (s : ℚ) : pyMod s 3600 < 3600 := by
  rw [pyMod_eq]
  calc 3600 * Int.fract (s / 3600) < 3600 * 1 := by
        exact (mul_lt_mul_left (by norm_num)).2 (Int.fract_lt_one _)
    _ = 3600 := by norm_num

/-- C6 — `_human_readable_time` renders a non-negative CPU-seconds value
as whole hours `⌊s / 3600⌋` and whole remaining minutes
`⌊(s mod 3600) / 60⌋`, characterized by
`3600·h + 60·m ≤ s < 3600·h + 60·(m+1)` with `0 ≤ m < 60` (truncation, not
rounding); in particular 5400 renders as "1 hours 30 minutes" and 59 as
"0 hours 0 minutes". -/
theorem C6_human_readable_time_truncates :
    (∀ s : ℚ, 0 ≤ s → ∃ h m : ℤ,
        human_readable_time s =
          toString h ++ " hours " ++ toString m ++ " minutes"
        ∧ 0 ≤ h ∧ 0 ≤ m ∧ m < 60
        ∧ (3600 * h + 60 * m : ℚ) ≤ s ∧ s < 3600 * h + 60 * (m + 1))
    ∧ human_readable_time 5400 = "1 hours 30 minutes"
    ∧ human_readable_time 59 = "0 hours 0 minutes" := by
  refine ⟨?_, ?_, ?_⟩
  · intro s hs
    refine ⟨⌊s / 3600⌋, ⌊pyMod s 3600 / 60⌋, rfl, ?_, ?_, ?_, ?_, ?_⟩
    · exact Int.floor_nonneg.2 (div_nonneg hs (by norm_num))
    · exact Int.floor_nonneg.2 (div_nonneg (pyMod_nonneg s) (by norm_num))
    · exact Int.floor_lt.2 (by
        rw [div_lt_iff (by norm_num : (0:ℚ) < 60)]
        calc pyMod s 3600 < 3600 := pyMod_lt s
          _ = (60 : ℤ) * 60 := by norm_num)
    · have h₁ : (60 : ℚ) * ⌊pyMod s 3600 / 60⌋ ≤ pyMod s 3600 := by
        rw [mul_comm, ← le_div_iff (by norm_num : (0:ℚ) < 60)]
        exact Int.floor_le _
      have h₂ : s = 3600 * ⌊s / 3600⌋ + pyMod s 3600 := by rw [pyMod]; ring
      calc (3600 * ⌊s / 3600⌋ + 60 * ⌊pyMod s 3600 / 60⌋ : ℚ)
          ≤ 3600 * ⌊s / 3600⌋ + pyMod s 3600 := by linarith
        _ = s := h₂.symm
    · have h₁ : pyMod s 3600 < 60 * (⌊pyMod s 3600 / 60⌋ + 1) := by
        rw [mul_comm, ← div_lt_iff (by norm_num : (0:ℚ) < 60)]
        push_cast
        exact Int.lt_floor_add_one _
      have h₂ : s = 3600 * ⌊s / 3600⌋ + pyMod s 3600 := by rw [pyMod]; ring
      push_cast at h₁ ⊢
      linarith
  · have h₁ : ⌊(5400 : ℚ) / 3600⌋ = 1 := by
      rw [Int.floor_eq_iff]; norm_num
    have h₂ : pyMod (5400 : ℚ) 3600 = 1800 := by rw [pyMod, h₁]; norm_num
    have h₃ : ⌊(1800 : ℚ) / 60⌋ = 30 := by
      rw [Int.floor_eq_iff]; norm_num
    rw [human_readable_time, h₁, h₂, h₃]
    rfl
  · have h₁ : ⌊(59 : ℚ) / 3600⌋ = 0 := by
      rw [Int.floor_eq_iff]; norm_num
    have h₂ : pyMod (59 : ℚ) 3600 = 59 := by rw [pyMod, h₁]; norm_num
    have h₃ : ⌊(59 : ℚ) / 60⌋ = 0 := by
      rw [Int.floor_eq_iff]; norm_num
    rw [human_readable_time, h₁, h₂, h₃]
    rfl

/-- Witness for C6 at the concrete value 59. -/
theorem C6_human_readable_time_truncates_witness :
    ∃ h m : ℤ,
      human_readable_time 59 =
        toString h ++ " hours " ++ toString m ++ " minutes"
      ∧ 0 ≤ h ∧ 0 ≤ m ∧ m < 60
      ∧ (3600 * h + 60 * m : ℚ) ≤ 59 ∧ (59 : ℚ) < 3600 * h + 60 * (m + 1) :=
  C6_human_readable_time_truncates.1 59 (by norm_num)

/-! ### Parsing lemmas -/

theorem processLine_skip_of_cond {alive ignorant : List (List Char)} {d : Dict}
    {l : List Char}
    (hc : (pyStripNonEmpty l && !pyStartswith dateMarker l) = false) :
    processLine alive ignorant d l = some d := by
  rw [processLine, if_neg (by simp [hc])]

theorem processLine_skip_of_short {alive ignorant : List (List Char)} {d : Dict}
    {l : List Char} (h : (pySplit l).length ≤ 1) :
    processLine alive ignorant d l = some d := by
  rw [processLine]
  by_cases hc : (pyStripNonEmpty l && !pyStartswith dateMarker l) = true
  · rw [if_pos hc]
    rcases hsp : pySplit l with _ | ⟨u, _ | ⟨t, r⟩⟩
    · rfl
    · rfl
    · rw [hsp] at h; simp at h
  · rw [if_neg hc]

theorem processLine_eq_of_split {alive ignorant : List (List Char)} {d : Dict}
    {l u t : List Char} {r : List (List Char)}
    (hc : (pyStripNonEmpty l && !pyStartswith dateMarker l) = true)
    (hsp : pySplit l = u :: t :: r) :
    processLine alive ignorant d l =
      if (!(List.contains alive u) || List.contains ignorant u) = true then some d
      else
        match pyFloat t with
        | none => none
        | some x => some (dictInsertAdd d u x) := by
  rw [processLine, if_pos hc, hsp]

theorem processLine_skip_of_filtered {alive ignorant : List (List Char)} {d : Dict}
    {l u t : List Char} {r : List (List Char)} (hsp : pySplit l = u :: t :: r)
    (hf : (!(List.contains alive u) || List.contains ignorant u) = true) :
    processLine alive ignorant d l = some d := by
  by_cases hc : (pyStripNonEmpty l && !pyStartswith dateMarker l) = true
  · rw [processLine_eq_of_split hc hsp, if_pos hf]
  · exact processLine_skip_of_cond (by simpa using hc)

theorem processLine_fail {alive ignorant : List (List Char)} {d : Dict}
    {l u t : List Char} {r : List (List Char)}
    (hc : (pyStripNonEmpty l && !pyStartswith dateMarker l) = true)
    (hsp : pySplit l = u :: t :: r)
    (hf : (!(List.contains alive u) || List.contains ignorant u) = false)
    (hfl : pyFloat t = none) :
    processLine alive ignorant d l = none := by
  rw [processLine_eq_of_split hc hsp, if_neg (by rw [hf]; exact Bool.false_ne_true), hfl]

theorem processLine_accept {alive ignorant : List (List Char)} {d : Dict}
    {l u t : List Char} {r : List (List Char)} {x : ℚ}
    (hc : (pyStripNonEmpty l && !pyStartswith dateMarker l) = true)
    (hsp : pySplit l = u :: t :: r)
    (hf : (!(List.contains alive u) || List.contains ignorant u) = false)
    (hfl : pyFloat t = some x) :
    processLine alive ignorant d l = some (dictInsertAdd d u x) := by
  rw [processLine_eq_of_split hc hsp, if_neg (by rw [hf]; exact Bool.false_ne_true), hfl]

theorem lineTakes_false_of_cond {alive ignorant : List (List Char)} {u l : List Char}
    (hc : (pyStripNonEmpty l && !pyStartswith dateMarker l) = false) :
    lineTakes alive ignorant u l = false := by
  simp only [lineTakes, hc, Bool.false_and]

theorem lineTakes_false_of_short {alive ignorant : List (List Char)} {u l : List Char}
    (h : (pySplit l).length ≤ 1) :
    lineTakes alive ignorant u l = false := by
  rw [lineTakes]
  rcases hsp : pySplit l with _ | ⟨u₁, _ | ⟨t, r⟩⟩
  · simp
  · simp
  · rw [hsp] at h; simp at h

theorem lineTakes_eq_of_split {alive ignorant : List (List Char)}
    {u₁ t : List Char} {r : List (List Char)} {l u : List Char}
    (hsp : pySplit l = u₁ :: t :: r) :
    lineTakes alive ignorant u l =
      (pyStripNonEmpty l && !pyStartswith dateMarker l &&
        (u₁ == u && List.contains alive u && !List.contains ignorant u)) := by
  rw [lineTakes, hsp]

theorem lineTakes_false_of_filtered {alive ignorant : List (List Char)}
    {u₁ t : List Char} {r : List (List Char)} {l : List Char}
    (hsp : pySplit l = u₁ :: t :: r)
    (hf : (!(List.contains alive u₁) || List.contains ignorant u₁) = true) :
    ∀ u, lineTakes alive ignorant u l = false := by
  intro u
  rw [lineTakes_eq_of_split hsp]
  by_cases hu : u₁ = u
  · subst hu
    rcases Bool.or_eq_true_iff.1 hf with h | h
    · have h' : List.contains alive u₁ = false := by simpa using h
      simp only [h', Bool.and_false, Bool.false_and]
    · simp only [h, Bool.not_true, Bool.and_false, Bool.false_and]
  · have hb : (u₁ == u) = false := by simpa using hu
    simp only [hb, Bool.false_and, Bool.and_false]

theorem lineTakes_of_accept {alive ignorant : List (List Char)}
    {u₁ t : List Char} {r : List (List Char)} {l : List Char}
    (hc : (pyStripNonEmpty l && !pyStartswith dateMarker l) = true)
    (hsp : pySplit l = u₁ :: t :: r)
    (ha : List.contains alive u₁ = true)
    (hi : List.contains ignorant u₁ = false) :
    ∀ u, lineTakes alive ignorant u l = (u₁ == u) := by
  intro u
  rw [lineTakes_eq_of_split hsp]
  by_cases hu : u₁ = u
  · subst hu
    simp only [hc, ha, hi, beq_self_eq_true, Bool.true_and, Bool.and_true,
      Bool.not_false]
  · have hb : (u₁ == u) = false := by simpa using hu
    simp only [hb, Bool.false_and, Bool.and_false]

theorem lineFloat_eq_of_split {u₁ t : List Char} {r : List (List Char)}
    {l : List Char} (hsp : pySplit l = u₁ :: t :: r) :
    lineFloat l = (pyFloat t).getD 0 := by
  rw [lineFloat, hsp]

theorem lineVal_eq {alive ignorant : List (List Char)} {u l : List Char}
    (h : lineTakes alive ignorant u l = false) :
    lineVal alive ignorant u l = 0 := by
  rw [lineVal, if_neg (by simp [h])]

theorem specVal_eq_zero {alive ignorant : List (List Char)} {u : List Char}
    {ls : List (List Char)}
    (h : ls.any (fun l => lineTakes alive ignorant u l) = false) :
    specVal alive ignorant ls u = 0 := by
  refine List.sum_eq_zero ?_
  intro x hx
  obtain ⟨l, hl, hlx⟩ := List.mem_map.1 hx
  have hLT : lineTakes alive ignorant u l = false := by
    by_contra hcon
    have : ls.any (fun l => lineTakes alive ignorant u l) = true :=
      List.any_eq_true.2 ⟨l, hl, by simpa using hcon⟩
    rw [this] at h
    exact absurd h (by simp)
  rw [← hlx]
  exact lineVal_eq hLT

theorem specVal_cons (alive ignorant : List (List Char)) (l : List Char)
    (ls : List (List Char)) (u : List Char) :
    specVal alive ignorant (l :: ls) u =
      lineVal alive ignorant u l + specVal alive ignorant ls u := by
  simp [specVal]

/-- The central invariant of `parse_log`: when the per-line loop runs to
completion from accumulator `d₀`, the value of every user in the final dict
is the start value plus the sum of the second fields of all taken lines. -/
theorem parseLines_get (alive ignorant : List (List Char)) :
    ∀ (ls : List (List Char)) (d₀ d : Dict),
      parseLines alive ignorant ls d₀ = some d →
      ∀ u, dictGet d u =
        if ls.any (fun l => lineTakes alive ignorant u l) then
          some (dictGetD d₀ u 0 + specVal alive ignorant ls u)
        else dictGet d₀ u := by
  intro ls
  induction ls with
  | nil =>
    intro d₀ d h u
    have hd : d₀ = d := by simpa [parseLines] using h
    subst hd
    simp
  | cons l ls ih =>
    intro d₀ d h u
    rw [parseLines] at h
    rcases hpl : processLine alive ignorant d₀ l with _ | d₁
    · rw [hpl] at h; exact absurd h (by simp)
    rw [hpl] at h
    have IH := ih d₁ d h u
    rw [List.any_cons, specVal_cons]
    by_cases hc : (pyStripNonEmpty l && !pyStartswith dateMarker l) = true
    · rcases hsp : pySplit l with _ | ⟨u₁, _ | ⟨t, r⟩⟩
      · -- no fields: line skipped
        have hd₁ : d₁ = d₀ := by
          have : processLine alive ignorant d₀ l = some d₀ :=
            processLine_skip_of_short (by rw [hsp]; simp)
          rw [hpl] at this; exact Option.some.inj this
        have hLT : lineTakes alive ignorant u l = false :=
          lineTakes_false_of_short (by rw [hsp]; simp)
        rw [hLT, lineVal_eq hLT, zero_add, Bool.false_or, ← hd₁]
        exact IH
      · -- one field: line skipped
        have hd₁ : d₁ = d₀ := by
          have : processLine alive ignorant d₀ l = some d₀ :=
            processLine_skip_of_short (by rw [hsp]; simp)
          rw [hpl] at this; exact Option.some.inj this
        have hLT : lineTakes alive ignorant u l = false :=
          lineTakes_false_of_short (by rw [hsp]; simp)
        rw [hLT, lineVal_eq hLT, zero_add, Bool.false_or, ← hd₁]
        exact IH
      · by_cases hf : (!(List.contains alive u₁) || List.contains ignorant u₁) = true
        · -- filtered out before the numeric field is examined
          have hd₁ : d₁ = d₀ := by
            have : processLine alive ignorant d₀ l = some d₀ :=
              processLine_skip_of_filtered hsp hf
            rw [hpl] at this; exact Option.some.inj this
          have hLT : lineTakes alive ignorant u l = false :=
            lineTakes_false_of_filtered hsp hf u
          rw [hLT, lineVal_eq hLT, zero_add, Bool.false_or, ← hd₁]
          exact IH
        · -- the line survives the filter
          have hf' : (!(List.contains alive u₁) || List.contains ignorant u₁) = false := by
            simpa using hf
          have ha : List.contains alive u₁ = true := by
            have h₁ := (Bool.or_eq_false_iff.1 hf').1
            simpa using h₁
          have hi : List.contains ignorant u₁ = false :=
            (Bool.or_eq_false_iff.1 hf').2
          rcases hfl : pyFloat t with _ | x
          · -- ValueError: cannot happen, the loop completed
            have := processLine_fail (d := d₀) hc hsp hf' hfl
            rw [hpl] at this
            exact absurd this (by simp)
          · have hd₁ : d₁ = dictInsertAdd d₀ u₁ x := by
              have := processLine_accept (d := d₀) hc hsp hf' hfl
              rw [hpl] at this; exact Option.some.inj this
            have hLT : lineTakes alive ignorant u l = (u₁ == u) :=
              lineTakes_of_accept hc hsp ha hi u
            have hLF : lineFloat l = x := by
              rw [lineFloat_eq_of_split hsp, hfl, Option.getD_some]
            by_cases hu : u₁ = u
            · subst hu
              have hval : lineVal alive ignorant u₁ l = x := by
                rw [lineVal, if_pos (by simp [hLT]), hLF]
              have hgd : dictGetD d₁ u₁ 0 = dictGetD d₀ u₁ 0 + x := by
                rw [hd₁, dictGetD, dictGet_insertAdd, if_pos rfl, Option.getD_some]
              have hg : dictGet d₁ u₁ = some (dictGetD d₀ u₁ 0 + x) := by
                rw [hd₁, dictGet_insertAdd, if_pos rfl]
              rw [hLT, hval, beq_self_eq_true, Bool.true_or, if_pos rfl]
              by_cases hany : ls.any (fun l => lineTakes alive ignorant u₁ l) = true
              · rw [hany, if_pos rfl] at IH
                rw [IH, hgd, add_assoc]
              · have hanyf : ls.any (fun l => lineTakes alive ignorant u₁ l) = false := by
                  simpa using hany
                rw [hanyf, if_neg (by simp)] at IH
                rw [IH, hg, specVal_eq_zero hanyf, add_zero]
            · have hbeq : (u₁ == u) = false := by simpa using hu
              have hval : lineVal alive ignorant u l = 0 :=
                lineVal_eq (by rw [hLT, hbeq])
              have hgd : dictGetD d₁ u 0 = dictGetD d₀ u 0 := by
                rw [hd₁, dictGetD, dictGet_insertAdd, if_neg hu, dictGetD]
              have hg : dictGet d₁ u = dictGet d₀ u := by
                rw [hd₁, dictGet_insertAdd, if_neg hu]
              rw [hLT, hbeq, hval, zero_add, Bool.false_or]
              by_cases hany : ls.any (fun l => lineTakes alive ignorant u l) = true
              · rw [hany, if_pos rfl] at IH
                rw [IH, hgd, hany, if_pos rfl]
              · have hanyf : ls.any (fun l => lineTakes alive ignorant u l) = false := by
                  simpa using hany
                rw [hanyf, if_neg (by simp)] at IH
                rw [IH, hg, hanyf, if_neg (by simp)]
    · -- blank line or Date: metadata line: skipped
      have hcf : (pyStripNonEmpty l && !pyStartswith dateMarker l) = false := by
        simpa using hc
      have hd₁ : d₁ = d₀ := by
        have : processLine alive ignorant d₀ l = some d₀ :=
          processLine_skip_of_cond hcf
        rw [hpl] at this; exact Option.some.inj this
      have hLT : lineTakes alive ignorant u l = false := lineTakes_false_of_cond hcf
      rw [hLT, lineVal_eq hLT, zero_add, Bool.false_or, ← hd₁]
      exact IH

/-- The value of every user in a successful `parse_log` run is exactly the
specification-side sum over the taken lines (and absent users are those no
line is taken for). -/
theorem parse_log_get {alive ignorant : List (List Char)} {content : List Char}
    {d : Dict} (h : parse_log alive ignorant content = some d) (u : List Char) :
    dictGet d u =
      if (splitNl content).any (fun l => lineTakes alive ignorant u l) then
        some (specVal alive ignorant (splitNl content) u)
      else none := by
  have := parseLines_get alive ignorant (splitNl content) [] d h u
  simpa [dictGetD, dictGet] using this

theorem lineTakes_mem {alive ignorant : List (List Char)} {u l : List Char}
    (h : lineTakes alive ignorant u l = true) : u ∈ alive ∧ u ∉ ignorant := by
  rcases hsp : pySplit l with _ | ⟨u₁, _ | ⟨t, r⟩⟩
  · rw [lineTakes_false_of_short (by rw [hsp]; simp)] at h
    exact absurd h (by simp)
  · rw [lineTakes_false_of_short (by rw [hsp]; simp)] at h
    exact absurd h (by simp)
  · rw [lineTakes_eq_of_split hsp] at h
    simp only [Bool.and_eq_true, beq_iff_eq] at h
    obtain ⟨-, ⟨-, hca⟩, hci⟩ := h
    exact ⟨by simpa using hca, by simpa using hci⟩

theorem parse_log_keys_subset {alive ignorant : List (List Char)}
    {content : List Char} {d : Dict} (h : parse_log alive ignorant content = some d) :
    ∀ u ∈ dictKeys d, u ∈ alive ∧ u ∉ ignorant := by
  intro u hu
  have hne := (mem_dictKeys_iff d u).1 hu
  have hval := parse_log_get h u
  by_cases hany : (splitNl content).any (fun l => lineTakes alive ignorant u l) = true
  · obtain ⟨l, _, hLT⟩ := List.any_eq_true.1 hany
    exact lineTakes_mem (by simpa using hLT)
  · rw [hval, if_neg hany] at hne
    exact absurd rfl hne

/-- C4 — On every snapshot where `parse_log` succeeds, the returned mapping
sends each user to the specification-side sum of its taken data lines
(`none` exactly when no line is taken for it), so multiple lines for the
same user are summed; every key passed the AllowSet/DenySet filter, and an
aggregation of such records also only contains filtered identities. -/
theorem C4_parse_filter_and_sum :
    (∀ (alive ignorant : List (List Char)) (content : List Char) (d : Dict),
        parse_log alive ignorant content = some d →
        ∀ u, dictGet d u =
          if (splitNl content).any (fun l => lineTakes alive ignorant u l) then
            some (specVal alive ignorant (splitNl content) u)
          else none)
    ∧ (∀ (alive ignorant : List (List Char)) (content : List Char) (d : Dict),
        parse_log alive ignorant content = some d →
        ∀ u ∈ dictKeys d, u ∈ alive ∧ u ∉ ignorant)
    ∧ (∀ (alive ignorant : List (List Char)) (records : List Dict),
        (∀ r ∈ records, ∀ u ∈ dictKeys r, u ∈ alive ∧ u ∉ ignorant) →
        ∀ u ∈ dictKeys (aggregate_cpu_usage records), u ∈ alive ∧ u ∉ ignorant) := by
  refine ⟨fun _ _ _ _ h => parse_log_get h,
    fun _ _ _ _ h => parse_log_keys_subset h, ?_⟩
  intro alive ignorant records hrec u hu
  obtain ⟨r, hr, hur⟩ := mem_dictKeys_aggregate hu
  exact hrec r hr u hur

/-- C4 as stated is false: on a snapshot whose lines are `carol 10` and
`dave xyz` with both users in the AllowSet and none in the DenySet, the
claim requires the mapping `{carol: 10}`, but `parse_log` raises
(`float("xyz")` is a `ValueError`) and returns no mapping at all. -/
theorem C4_counterexample :
    parse_log ["carol".toList, "dave".toList] [] ("carol 10\ndave xyz".toList) = none
    ∧ ¬(parse_log ["carol".toList, "dave".toList] [] ("carol 10\ndave xyz".toList) =
        some [("carol".toList, (10 : ℚ))]) := by
  constructor
  · decide
  · decide

/-- Witness for C4 on a concrete one-line snapshot. -/
theorem C4_parse_filter_and_sum_witness :
    dictGet [(['a'], (3600 : ℚ))] ['a'] =
      if (splitNl ("a 3600".toList)).any
          (fun l => lineTakes [['a']] [] ['a'] l) then
        some (specVal [['a']] [] (splitNl ("a 3600".toList)) ['a'])
      else none :=
  C4_parse_filter_and_sum.1 [['a']] [] ("a 3600".toList) [(['a'], (3600 : ℚ))]
    (by decide) ['a']

/-! ### Non-negativity -/

theorem addRecord_nonneg {t r : Dict} (ht : ∀ p ∈ t, 0 ≤ p.2)
    (hr : ∀ p ∈ r, 0 ≤ p.2) : ∀ p ∈ addRecord t r, 0 ≤ p.2 := by
  induction r generalizing t with
  | nil => simpa [addRecord] using ht
  | cons q r ih =>
    have hfold : addRecord t (q :: r) = addRecord (dictInsertAdd t q.1 q.2) r := by
      simp [addRecord]
    rw [hfold]
    exact ih (insertAdd_nonneg ht (hr q (by simp)))
      (fun p hp => hr p (List.mem_cons_of_mem _ hp))

theorem aggregate_nonneg :
    ∀ records : List Dict, (∀ r ∈ records, ∀ p ∈ r, 0 ≤ p.2) →
      ∀ p ∈ aggregate_cpu_usage records, 0 ≤ p.2 := by
  have key : ∀ (records : List Dict) (t : Dict), (∀ p ∈ t, 0 ≤ p.2) →
      (∀ r ∈ records, ∀ p ∈ r, 0 ≤ p.2) →
      ∀ p ∈ records.foldl addRecord t, 0 ≤ p.2 := by
    intro records
    induction records with
    | nil => intro t ht _; simpa using ht
    | cons r rs ih =>
      intro t ht hrec
      rw [List.foldl_cons]
      exact ih (addRecord t r) (addRecord_nonneg ht (hrec r (by simp)))
        (fun q hq => hrec q (List.mem_cons_of_mem _ hq))
  intro records h
  exact key records [] (by simp) h

theorem parseLines_nonneg (alive ignorant : List (List Char)) :
    ∀ (ls : List (List Char)) (d₀ d : Dict),
      parseLines alive ignorant ls d₀ = some d →
      (∀ l ∈ ls, ∀ u t : List Char, ∀ r : List (List Char),
        pySplit l = u :: t :: r → ∀ v : ℚ, pyFloat t = some v → 0 ≤ v) →
      (∀ p ∈ d₀, 0 ≤ p.2) → ∀ p ∈ d, 0 ≤ p.2 := by
  intro ls
  induction ls with
  | nil =>
    intro d₀ d h _ h₀
    have hd : d₀ = d := by simpa [parseLines] using h
    subst hd
    exact h₀
  | cons l ls ih =>
    intro d₀ d h hlines h₀
    rw [parseLines] at h
    rcases hpl : processLine alive ignorant d₀ l with _ | d₁
    · rw [hpl] at h; exact absurd h (by simp)
    rw [hpl] at h
    have htail : ∀ l₁ ∈ ls, ∀ u t : List Char, ∀ r : List (List Char),
        pySplit l₁ = u :: t :: r → ∀ v : ℚ, pyFloat t = some v → 0 ≤ v :=
      fun l₁ hl₁ => hlines l₁ (List.mem_cons_of_mem _ hl₁)
    refine ih d₁ d h htail ?_
    by_cases hc : (pyStripNonEmpty l && !pyStartswith dateMarker l) = true
    · rcases hsp : pySplit l with _ | ⟨u₁, _ | ⟨t, r⟩⟩
      · have : processLine alive ignorant d₀ l = some d₀ :=
          processLine_skip_of_short (by rw [hsp]; simp)
        rw [hpl] at this
        rw [Option.some.inj this]
        exact h₀
      · have : processLine alive ignorant d₀ l = some d₀ :=
          processLine_skip_of_short (by rw [hsp]; simp)
        rw [hpl] at this
        rw [Option.some.inj this]
        exact h₀
      · by_cases hf : (!(List.contains alive u₁) || List.contains ignorant u₁) = true
        · have : processLine alive ignorant d₀ l = some d₀ :=
            processLine_skip_of_filtered hsp hf
          rw [hpl] at this
          rw [Option.some.inj this]
          exact h₀
        · have hf' : (!(List.contains alive u₁) || List.contains ignorant u₁) = false := by
            simpa using hf
          rcases hfl : pyFloat t with _ | x
          · have := processLine_fail (d := d₀) hc hsp hf' hfl
            rw [hpl] at this
            exact absurd this (by simp)
          · have := processLine_accept (d := d₀) hc hsp hf' hfl
            rw [hpl] at this
            rw [Option.some.inj this]
            exact insertAdd_nonneg h₀ (hlines l (by simp) u₁ t r hsp x hfl)
    · have : processLine alive ignorant d₀ l = some d₀ :=
        processLine_skip_of_cond (by simpa using hc)
      rw [hpl] at this
      rw [Option.some.inj this]
      exact h₀

/-- C3 — When every numeric field of the snapshot parses to a non-negative
value (as the external accounting format guarantees), every value of the
`UsageRecord` returned by `parse_log` is non-negative, and aggregation of
records with non-negative values yields only non-negative values. -/
theorem C3_values_nonneg :
    (∀ (alive ignorant : List (List Char)) (content : List Char) (d : Dict),
        parse_log alive ignorant content = some d →
        (∀ l ∈ splitNl content, ∀ u t : List Char, ∀ r : List (List Char),
          pySplit l = u :: t :: r → ∀ v : ℚ, pyFloat t = some v → 0 ≤ v) →
        ∀ p ∈ d, 0 ≤ p.2)
    ∧ (∀ records : List Dict, (∀ r ∈ records, ∀ p ∈ r, 0 ≤ p.2) →
        ∀ p ∈ aggregate_cpu_usage records, 0 ≤ p.2) := by
  refine ⟨?_, aggregate_nonneg⟩
  intro alive ignorant content d h hlines
  exact parseLines_nonneg alive ignorant (splitNl content) [] d h hlines (by simp)

/-- C3 as stated is false: the code accepts negative numeric fields, so a
snapshot line `a -5` for an allowed user produces the value -5 < 0 in the
returned `UsageRecord`. -/
theorem C3_counterexample :
    parse_log [['a']] [] ("a -5".toList) = some [(['a'], (-5 : ℚ))]
    ∧ ((-5 : ℚ) < 0) := by
  constructor
  · decide
  · norm_num

/-- Witness for C3 on a concrete one-line snapshot with value 2. -/
theorem C3_values_nonneg_witness :
    (0 : ℚ) ≤ ((['a'], (2 : ℚ)) : List Char × ℚ).2 := by
  refine C3_values_nonneg.1 [['a']] [] ("a 2".toList) [(['a'], (2 : ℚ))]
    (by decide) ?_ (['a'], (2 : ℚ)) (by decide)
  intro l hl u t r hsp v hv
  have hl' : l = ['a', ' ', '2'] := by
    have hsplit : splitNl ("a 2".toList) = [['a', ' ', '2']] := by decide
    rw [hsplit] at hl
    simpa using hl
  subst hl'
  have hsp' : pySplit ['a', ' ', '2'] = [['a'], ['2']] := by decide
  rw [hsp'] at hsp
  have ht : t = ['2'] := by
    injection hsp with h₁ h₂
    injection h₂ with h₃ h₄
    exact h₃.symm
  subst ht
  have hv2 : pyFloat ['2'] = some (2 : ℚ) := by decide
  rw [hv2] at hv
  have := Option.some.inj hv
  rw [← this]
  norm_num

/-! ### Malformed lines (C1) and capture (C8) -/

/-- C1 — What the parser actually does with malformed lines: a line with
fewer than two whitespace-separated fields is skipped silently and parsing
continues; but a line whose first field passes the allow/deny filter and
whose second field is not a valid number raises an uncaught `ValueError`
and aborts the whole parse.  On the claimed example (`alice 3600` +
`bob notanumber`, both users allowed) the parse therefore fails; it yields
`{alice: 3600}` only when `bob` is filtered out before `float` runs. -/
theorem C1_malformed_line_behaviour :
    (∀ (alive ignorant : List (List Char)) (d : Dict) (l : List Char)
        (ls : List (List Char)), (pySplit l).length ≤ 1 →
        parseLines alive ignorant (l :: ls) d = parseLines alive ignorant ls d)
    ∧ (∀ (alive ignorant : List (List Char)) (d : Dict) (l : List Char)
        (ls : List (List Char)) (u t : List Char) (r : List (List Char)),
        (pyStripNonEmpty l && !pyStartswith dateMarker l) = true →
        pySplit l = u :: t :: r → u ∈ alive → u ∉ ignorant →
        pyFloat t = none →
        parseLines alive ignorant (l :: ls) d = none)
    ∧ parse_log ["alice".toList, "bob".toList] []
        ("alice 3600\nbob notanumber".toList) = none
    ∧ parse_log ["alice".toList] [] ("alice 3600\nbob notanumber".toList) =
        some [("alice".toList, (3600 : ℚ))] := by
  refine ⟨?_, ?_, by decide, by decide⟩
  · intro alive ignorant d l ls h
    rw [parseLines, processLine_skip_of_short h]
  · intro alive ignorant d l ls u t r hc hsp hmem hnot hfl
    have ha : List.contains alive u = true := by simpa using hmem
    have hi : List.contains ignorant u = false := by simpa using hnot
    have hf : (!(List.contains alive u) || List.contains ignorant u) = false := by
      rw [ha, hi]
      rfl
    rw [parseLines, processLine_fail hc hsp hf hfl]

/-- Witness for C1: a one-field line is skipped and parsing continues. -/
theorem C1_malformed_line_behaviour_witness :
    parseLines [] [] [['z']] [] = parseLines [] [] [] [] :=
  C1_malformed_line_behaviour.1 [] [] [] ['z'] [] (by decide)

/-- C1 as stated is false: the snapshot `alice 3600` + `bob notanumber`
with both users in the AllowSet and none in the DenySet does not parse to
`{alice: 3600}` — `float("notanumber")` raises and the parse returns no
mapping. -/
theorem C1_counterexample :
    parse_log ["alice".toList, "bob".toList] []
        ("alice 3600\nbob notanumber".toList) = none
    ∧ ¬(parse_log ["alice".toList, "bob".toList] []
        ("alice 3600\nbob notanumber".toList) =
          some [("alice".toList, (3600 : ℚ))]) := by
  exact ⟨by decide, by decide⟩

/-- C8 — What `save_logs` actually does: when the invocation of the
external command raises, the exception propagates and no snapshot file is
written; but when the command completes, the snapshot is persisted
whatever the exit status is (`subprocess.run` is called without
`check=True`, so a non-zero exit status is not detected). -/
theorem C8_save_logs_behaviour :
    (∀ today : List Char, save_logs today RunOutcome.invokeError = none)
    ∧ (∀ (today out : List Char) (code : ℤ),
        save_logs today (RunOutcome.completed code out) =
          some (save_logs_content today out)) :=
  ⟨fun _ => rfl, fun _ _ _ => rfl⟩

/-- C8 as stated is false: with exit status 1 (≠ 0) the snapshot is still
persisted. -/
theorem C8_counterexample :
    (1 : ℤ) ≠ 0
    ∧ save_logs ['d'] (RunOutcome.completed 1 ['x']) =
        some (save_logs_content ['d'] ['x']) := by
  exact ⟨by decide, rfl⟩

/-! ### AllowSet construction (C9) -/

theorem alive_users_all_short (isdir : List Char → Bool) :
    ∀ (passwd : List (List Char)) (alive : List (List Char)),
      alive_users isdir passwd = some alive → ∀ a ∈ alive, a.length ≤ 8 := by
  intro passwd
  induction passwd with
  | nil =>
    intro alive h a ha
    have : ([] : List (List Char)) = alive := by simpa [alive_users] using h
    rw [← this] at ha
    exact absurd ha (by simp)
  | cons line rest ih =>
    intro alive h a ha
    rcases h5 : (passwdFields line).2 with _ | home
    · rw [alive_users, h5] at h; exact absurd h (by simp)
    rcases hrest : alive_users isdir rest with _ | acc
    · rw [alive_users, h5, hrest] at h; exact absurd h (by simp)
    simp only [alive_users, h5, hrest] at h
    by_cases hcond : (isdir home && containsSub ['h', 'o', 'm', 'e'] home) = true
    · rw [if_pos hcond] at h
      rw [← Option.some.inj h] at ha
      rcases List.mem_cons.1 ha with h₁ | h₁
      · rw [h₁]
        exact List.length_take_le 8 _
      · exact ih acc hrest a h₁
    · rw [if_neg hcond] at h
      rw [← Option.some.inj h] at ha
      exact ih acc hrest a ha

/-- C9 — Every key of a successful `parse_log` run whose AllowSet was
built by the `__init__` scan is a member of that AllowSet and has length
at most 8: the scan truncates every account name to 8 characters
(`username[:8]`), and the parser compares a line's raw first token against
that truncated list, so a longer username can never appear in the result. -/
theorem C9_keys_at_most_8_chars :
    ∀ (isdir : List Char → Bool) (passwd : List (List Char))
      (alive ignorant : List (List Char)) (content : List Char) (d : Dict),
      alive_users isdir passwd = some alive →
      parse_log alive ignorant content = some d →
      ∀ u ∈ dictKeys d, u ∈ alive ∧ u.length ≤ 8 := by
  intro isdir passwd alive ignorant content d hscan hparse u hu
  have hmem := (parse_log_keys_subset hparse u hu).1
  exact ⟨hmem, alive_users_all_short isdir passwd alive hscan u hmem⟩

/-- Witness for C9 on a one-entry passwd registry and a one-line snapshot. -/
theorem C9_keys_at_most_8_chars_witness :
    ['a'] ∈ [['a']] ∧ List.length ['a'] ≤ 8 :=
  C9_keys_at_most_8_chars (fun _ => true) ["a:x:0:0:g:/home/a".toList] [['a']] []
    ("a 1".toList) [(['a'], (1 : ℚ))] (by decide) (by decide) ['a'] (by decide)

/-! ### Metadata round-trip (C10) -/

theorem splitOnCharAux_no_sep (sep : Char) :
    ∀ (a acc b : List Char), (∀ c ∈ a, c ≠ sep) →
      splitOnCharAux sep (a ++ sep :: b) acc =
        (acc.reverse ++ a) :: splitOnCharAux sep b [] := by
  intro a
  induction a with
  | nil => intro acc b _; simp [splitOnCharAux]
  | cons c a ih =>
    intro acc b h
    have hc : ¬(c = sep) := h c (by simp)
    rw [List.cons_append, splitOnCharAux, if_neg hc,
      ih (c :: acc) b (fun x hx => h x (List.mem_cons_of_mem _ hx))]
    simp

theorem splitOnCharAux_append_sep (sep : Char) :
    ∀ (xs acc : List Char),
      splitOnCharAux sep (xs ++ [sep]) acc = splitOnCharAux sep xs acc ++ [[]] := by
  intro xs
  induction xs with
  | nil => intro acc; simp [splitOnCharAux]
  | cons c xs ih =>
    intro acc
    by_cases hc : c = sep
    · subst hc
      rw [List.cons_append, splitOnCharAux, if_pos rfl, splitOnCharAux, if_pos rfl,
        ih, List.cons_append]
    · rw [List.cons_append, splitOnCharAux, if_neg hc, splitOnCharAux, if_neg hc, ih]

theorem splitNl_save_logs_content {today raw : List Char}
    (h : ∀ c ∈ today, c ≠ '\n') :
    splitNl (save_logs_content today raw) =
      (dateLineStart ++ today) :: (splitNl raw ++ [[]]) := by
  have hA : ∀ c ∈ dateLineStart ++ today, c ≠ '\n' := by
    intro c hc
    rcases List.mem_append.1 hc with h₁ | h₁
    · rw [dateLineStart] at h₁
      simp only [List.mem_cons] at h₁
      rcases h₁ with rfl | rfl | rfl | rfl | rfl | rfl | h₁
      · decide
      · decide
      · decide
      · decide
      · decide
      · decide
      · exact absurd h₁ (by simp)
    · exact h c h₁
  have hshape : save_logs_content today raw =
      (dateLineStart ++ today) ++ '\n' :: (raw ++ ['\n']) := by
    rw [save_logs_content, List.append_assoc]
  rw [hshape, splitNl, splitOnChar, splitOnCharAux_no_sep '\n' _ _ _ hA,
    splitOnCharAux_append_sep]
  simp [splitNl, splitOnChar]

theorem startswith_dateLine (today : List Char) :
    pyStartswith dateMarker (dateLineStart ++ today) = true := by
  rw [pyStartswith]
  have hshape : dateLineStart ++ today = dateMarker ++ (' ' :: today) := rfl
  rw [hshape]
  exact List.isPrefixOf_iff_prefix.2 (List.prefix_append _ _)

theorem processLine_skip_dateLine (alive ignorant : List (List Char)) (d : Dict)
    (today : List Char) :
    processLine alive ignorant d (dateLineStart ++ today) = some d := by
  refine processLine_skip_of_cond ?_
  rw [startswith_dateLine]
  simp

theorem processLine_skip_blank (alive ignorant : List (List Char)) (d : Dict) :
    processLine alive ignorant d [] = some d := by
  refine processLine_skip_of_cond ?_
  simp [pyStripNonEmpty]

theorem parseLines_append (alive ignorant : List (List Char)) :
    ∀ (ls₁ ls₂ : List (List Char)) (d : Dict),
      parseLines alive ignorant (ls₁ ++ ls₂) d =
        (parseLines alive ignorant ls₁ d).bind
          (fun d₁ => parseLines alive ignorant ls₂ d₁) := by
  intro ls₁
  induction ls₁ with
  | nil => intro ls₂ d; simp [parseLines]
  | cons l ls₁ ih =>
    intro ls₂ d
    rw [List.cons_append, parseLines, parseLines]
    rcases hpl : processLine alive ignorant d l with _ | d₁
    · simp
    · exact ih ls₂ d₁

/-- C10 — Round-trip of persistence and parsing: the file written by
`save_logs` begins with a single metadata line `Date: {today}`; `parse_log`
skips that line (it starts with the `Date:` marker) as well as the blank
line produced by the trailing newline, so parsing the written file yields
exactly the same result as parsing the raw command output alone. -/
theorem C10_save_parse_roundtrip :
    ∀ (alive ignorant : List (List Char)) (today raw : List Char),
      (∀ c ∈ today, c ≠ '\n') →
      (splitNl (save_logs_content today raw)).head? = some (dateLineStart ++ today)
      ∧ pyStartswith dateMarker (dateLineStart ++ today) = true
      ∧ parse_log alive ignorant (save_logs_content today raw) =
          parse_log alive ignorant raw := by
  intro alive ignorant today raw h
  refine ⟨?_, startswith_dateLine today, ?_⟩
  · rw [splitNl_save_logs_content h]
    rfl
  · rw [parse_log, splitNl_save_logs_content h, parseLines,
      processLine_skip_dateLine]
    show parseLines alive ignorant (splitNl raw ++ [[]]) [] =
      parse_log alive ignorant raw
    rw [parseLines_append, parse_log]
    rcases hres : parseLines alive ignorant (splitNl raw) [] with _ | d
    · rfl
    · rw [Option.some_bind, parseLines, processLine_skip_blank alive ignorant d]
      rfl

/-- Witness for C10 with the date `24` and the raw output line `a 1`. -/
theorem C10_save_parse_roundtrip_witness :
    (splitNl (save_logs_content ['2', '4'] ['a', ' ', '1'])).head? =
      some (dateLineStart ++ ['2', '4'])
    ∧ pyStartswith dateMarker (dateLineStart ++ ['2', '4']) = true
    ∧ parse_log [['a']] [] (save_logs_content ['2', '4'] ['a', ' ', '1']) =
        parse_log [['a']] [] ['a', ' ', '1'] :=
  C10_save_parse_roundtrip [['a']] [] ['2', '4'] ['a', ' ', '1'] (by decide)

end CpuMon
